import Mathlib

/-!
Verification of the finite-field and elliptic-curve core of the
`programming-bitcoin` repository.

The finite-field arithmetic embeds `src/finite_field.rs` (`FiniteField<F>`
over `BigUint`, modulus `m` carried as an explicit parameter): every residue
is a `Nat`, and each operation reduces modulo `m` exactly as the source does.
The curve group law embeds `src/ec_generic.rs` (`ECurve`, `ECPoint`,
`PointType`, `impl Add`) instantiated at that finite field; the source's
`assert!` on a curve mismatch is modelled by an `Option` result (`none` is
the abort).  The fixed-width `i32` variant of `src/ec.rs` is embedded
separately (`epAdd`), with Rust's truncating `i32` division modelled by
`Int.tdiv`; its inputs in the theorems below are far from `i32` overflow.
-/

/-- `impl Add for &FiniteField` in finite_field.rs: `(a + b) % m`. -/
def ffAdd (m a b : Nat) : Nat := (a + b) % m

/-- `impl Sub for &FiniteField` in finite_field.rs: `((a + m) - b) % m`. -/
def ffSub (m a b : Nat) : Nat := (a + m - b) % m

/-- `impl Mul for &FiniteField` in finite_field.rs: `(a * b) % m`. -/
def ffMul (m a b : Nat) : Nat := (a * b) % m

/-- The square-and-multiply `while` loop of `FiniteField::exp`.  The loop
halves `expv` every round, so it runs at most `expv` rounds; `fuel` counts
rounds structurally (callers pass `fuel := expv`, which never runs out). -/
def expLoopAux (m : Nat) : Nat → Nat → Nat → Nat → Nat
  | 0, _, _, result => result
  | fuel + 1, base, expv, result =>
    if expv = 0 then result
    else
      expLoopAux m fuel ((base * base) % m) (expv / 2)
        (if expv % 2 = 1 then (result * base) % m else result)

/-- `FiniteField::exp` in finite_field.rs: special cases for exponent `0`
(returns raw residue `1`), base `0` (returns `0`) and base `1` (returns the
element itself), then the square-and-multiply loop. -/
def ffExp (m a e : Nat) : Nat :=
  if e = 0 then 1
  else if a = 0 then 0
  else if a = 1 then a
  else expLoopAux m e a e 1

/-- `impl Div for &FiniteField` in finite_field.rs: Fermat inverse,
`a * b.exp(m - 2)`. -/
def ffDiv (m a b : Nat) : Nat := ffMul m a (ffExp m b (m - 2))

/-- `PointType` in ec_generic.rs. -/
inductive PointType where
  | Invalid : PointType
  | Infinity : PointType
  | Point : Nat → Nat → PointType
deriving DecidableEq

/-- `ECurve` in ec_generic.rs: the parameters `(a, b)` of
`y^2 = x^3 + a*x + b`, as field elements mod `m`. -/
structure ECurve where
  a : Nat
  b : Nat
deriving DecidableEq

/-- `ECPoint` in ec_generic.rs: a point together with the curve it
references. -/
structure ECPoint where
  curve : ECurve
  p : PointType
deriving DecidableEq

/-- `ECurve::contains` in ec_generic.rs: `y*y == x*x*x + a*x + b` over the
field mod `m`. -/
def contains (m : Nat) (c : ECurve) (x y : Nat) : Bool :=
  ffMul m y y == ffAdd m (ffAdd m (ffMul m (ffMul m x x) x) (ffMul m c.a x)) c.b

/-- `ECurve::point_at` in ec_generic.rs: validates curve membership and
returns an `Affine` (`Point`) point on success, the `Invalid` sentinel
otherwise. -/
def point_at (m : Nat) (c : ECurve) (x y : Nat) : ECPoint :=
  if contains m c x y then ⟨c, PointType.Point x y⟩ else ⟨c, PointType.Invalid⟩

/-- The body of `impl Add for ECPoint` in ec_generic.rs, after the
curve-mismatch assert.  Match arms in source order; `T::from_i32(k)` of the
generic numeric trait embeds as the residue `k % m`. -/
def ecAddBody (m : Nat) (P Q : ECPoint) : ECPoint :=
  match P.p, Q.p with
  | PointType.Infinity, _ => Q
  | _, PointType.Infinity => P
  | PointType.Invalid, _ => ⟨P.curve, PointType.Invalid⟩
  | _, PointType.Invalid => ⟨P.curve, PointType.Invalid⟩
  | PointType.Point x1 y1, PointType.Point x2 y2 =>
    if x1 = x2 ∧ y1 ≠ y2 then ⟨P.curve, PointType.Infinity⟩
    else if x1 = x2 ∧ y1 = y2 then
      if y1 = 0 % m then ⟨P.curve, PointType.Infinity⟩
      else
        let s := ffDiv m (ffAdd m (ffMul m (ffMul m (3 % m) x1) x1) P.curve.a)
          (ffMul m (2 % m) y1)
        let x := ffSub m (ffSub m (ffMul m s s) x1) x2
        let y := ffSub m (ffMul m s (ffSub m x1 x)) y1
        ⟨P.curve, PointType.Point x y⟩
    else
      let s := ffDiv m (ffSub m y2 y1) (ffSub m x2 x1)
      let x := ffSub m (ffSub m (ffMul m s s) x1) x2
      let y := ffSub m (ffMul m s (ffSub m x1 x)) y1
      ⟨P.curve, PointType.Point x y⟩

/-- `impl Add for ECPoint` in ec_generic.rs.  The source `assert!`s that the
two points reference the same curve; the abort is modelled by `none`. -/
def ecAdd (m : Nat) (P Q : ECPoint) : Option ECPoint :=
  if P.curve = Q.curve then some (ecAddBody m P Q) else none

/-- Affine coordinates of a point are reduced residues of the field mod `m`
(the invariant `num < modulus` of every `FiniteField` value). -/
def coordsLt (m : Nat) (P : ECPoint) : Prop :=
  match P.p with
  | PointType.Point x y => x < m ∧ y < m
  | _ => True

/-- `ECurve::contains` of the fixed-width variant ec.rs, over `i32`. -/
def epContains (A B x y : Int) : Bool :=
  y * y == x * x * x + A * x + B

/-- `impl Add for EPoint` in ec.rs: the `i32` variant, `none` being the
point at infinity.  Rust `i32` division truncates toward zero, which is
`Int.div`. -/
def epAdd (A B : Int) (P Q : Option (Int × Int)) : Option (Int × Int) :=
  match P, Q with
  | none, _ => Q
  | _, none => P
  | some (x1, y1), some (x2, y2) =>
    if x1 = x2 ∧ y1 ≠ y2 then none
    else if x1 = x2 ∧ y1 = y2 then
      if y1 = 0 then none
      else
        let s := Int.tdiv (3 * x1 * x1 + A) (2 * y1)
        let x := s * s - x1 - x2
        some (x, s * (x1 - x) - y1)
    else
      let s := Int.tdiv (y2 - y1) (x2 - x1)
      let x := s * s - x1 - x2
      some (x, s * (x1 - x) - y1)

/-- Error taxonomy of the spec (section 7). -/
inductive FieldError where
  | InvalidResidue : FieldError
deriving DecidableEq

/-- A field element of the runtime-modulus variant: residue plus modulus. -/
structure FieldElement where
  num : Nat
  modulus : Nat
deriving DecidableEq

/-- Modelled from the spec: `FieldElement::new(value, modulus)` of the
`finite_field_generic` module, which is absent from the source tree (only
its callers in ec_generic.rs remain, using `FieldElement::new(v, m).unwrap()`).
Per the spec it fails with `InvalidResidue` if `value ≥ modulus` and
otherwise returns the normalized element. -/
def FieldElement.new (v m : Nat) : Except FieldError FieldElement :=
  if v < m then Except.ok ⟨v, m⟩ else Except.error FieldError.InvalidResidue

theorem expLoopAux_zero (m fuel base r : Nat) : expLoopAux m fuel base 0 r = r := by
  cases fuel <;> simp [expLoopAux]

theorem expLoopAux_correct (m : Nat) :
    ∀ fuel base e r, e ≠ 0 → e ≤ fuel → expLoopAux m fuel base e r = r * base ^ e % m := by
  intro fuel
  induction fuel with
  | zero => intro base e r he hle; omega
  | succ f ih =>
    intro base e r he hle
    rw [expLoopAux, if_neg he]
    by_cases h2 : e / 2 = 0
    · have he1 : e = 1 := by omega
      subst he1
      norm_num [expLoopAux_zero]
    · have hdiv : e / 2 < e := Nat.div_lt_self (Nat.pos_of_ne_zero he) one_lt_two
      have hle2 : e / 2 ≤ f := by omega
      rw [ih _ _ _ h2 hle2]
      by_cases hodd : e % 2 = 1
      · rw [if_pos hodd]
        have h1 : r * base % m * (base * base % m) ^ (e / 2) ≡
            r * base * (base * base) ^ (e / 2) [MOD m] :=
          Nat.ModEq.mul (Nat.mod_modEq _ _) ((Nat.mod_modEq _ _).pow _)
        have h2' : r * base * (base * base) ^ (e / 2) = r * base ^ e := by
          rw [← pow_two, ← pow_mul, mul_assoc, ← pow_succ']
          congr 2
          omega
        rw [h2'] at h1
        exact h1
      · rw [if_neg hodd]
        have h1 : r * (base * base % m) ^ (e / 2) ≡
            r * (base * base) ^ (e / 2) [MOD m] :=
          Nat.ModEq.mul_left _ ((Nat.mod_modEq _ _).pow _)
        have h2' : r * (base * base) ^ (e / 2) = r * base ^ e := by
          rw [← pow_two, ← pow_mul]
          congr 2
          omega
        rw [h2'] at h1
        exact h1

theorem ffExp_correct {m : Nat} (hm : 2 ≤ m) {a : Nat} (ha : a < m) (e : Nat) :
    ffExp m a e = a ^ e % m := by
  unfold ffExp
  by_cases he : e = 0
  · subst he
    rw [if_pos rfl, pow_zero, Nat.mod_eq_of_lt (by omega)]
  · rw [if_neg he]
    by_cases ha0 : a = 0
    · subst ha0
      rw [if_pos rfl, zero_pow he, Nat.zero_mod]
    · rw [if_neg ha0]
      by_cases ha1 : a = 1
      · subst ha1
        rw [if_pos rfl, one_pow, Nat.mod_eq_of_lt (by omega)]
      · rw [if_neg ha1, expLoopAux_correct m e a e 1 he (Nat.le_refl e), one_mul]

theorem ffAdd_lt {m : Nat} (hm : 0 < m) (a b : Nat) : ffAdd m a b < m :=
  Nat.mod_lt _ hm

theorem ffSub_lt {m : Nat} (hm : 0 < m) (a b : Nat) : ffSub m a b < m :=
  Nat.mod_lt _ hm

theorem ffMul_lt {m : Nat} (hm : 0 < m) (a b : Nat) : ffMul m a b < m :=
  Nat.mod_lt _ hm

theorem ffDiv_lt {m : Nat} (hm : 0 < m) (a b : Nat) : ffDiv m a b < m :=
  ffMul_lt hm _ _

theorem le_add_self_of_lt {m b : Nat} (hb : b < m) {a : Nat} : b ≤ a + m :=
  le_trans hb.le (Nat.le_add_left m a)

theorem cast_ffAdd {m : Nat} (a b : Nat) :
    ((ffAdd m a b : Nat) : ZMod m) = (a : ZMod m) + (b : ZMod m) := by
  unfold ffAdd
  rw [ZMod.natCast_mod, Nat.cast_add]

theorem cast_ffMul {m : Nat} (a b : Nat) :
    ((ffMul m a b : Nat) : ZMod m) = (a : ZMod m) * (b : ZMod m) := by
  unfold ffMul
  rw [ZMod.natCast_mod, Nat.cast_mul]

theorem cast_ffSub {m a b : Nat} (h : b ≤ a + m) :
    ((ffSub m a b : Nat) : ZMod m) = (a : ZMod m) - (b : ZMod m) := by
  unfold ffSub
  rw [ZMod.natCast_mod, Nat.cast_sub h, Nat.cast_add, ZMod.natCast_self, add_zero]

theorem cast_ffExp {m : Nat} (hm : 2 ≤ m) {a : Nat} (ha : a < m) (e : Nat) :
    ((ffExp m a e : Nat) : ZMod m) = (a : ZMod m) ^ e := by
  rw [ffExp_correct hm ha, ZMod.natCast_mod, Nat.cast_pow]

theorem cast_ffDiv {m : Nat} (hm : 2 ≤ m) (a : Nat) {b : Nat} (hb : b < m) :
    ((ffDiv m a b : Nat) : ZMod m) = (a : ZMod m) * (b : ZMod m) ^ (m - 2) := by
  unfold ffDiv
  rw [cast_ffMul, cast_ffExp hm hb]

theorem natCast_zmod_inj {m : Nat} (hm : 0 < m) {a b : Nat} (ha : a < m) (hb : b < m)
    (h : (a : ZMod m) = (b : ZMod m)) : a = b := by
  haveI : NeZero m := ⟨hm.ne'⟩
  have h2 := congrArg ZMod.val h
  rwa [ZMod.val_cast_of_lt ha, ZMod.val_cast_of_lt hb] at h2

theorem pow_sub_two_inv {m : Nat} [Fact m.Prime] {w : ZMod m} (hw : w ≠ 0) :
    w ^ (m - 2) = w⁻¹ := by
  have hm : 2 ≤ m := (Fact.out : m.Prime).two_le
  have h1 : w ^ (m - 1) = 1 := ZMod.pow_card_sub_one_eq_one hw
  have h2 : w ^ (m - 2) * w = w ^ (m - 1) := by
    rw [← pow_succ]
    congr 1
    omega
  exact eq_inv_of_mul_eq_one_left (h2.trans h1)

theorem cast_ne_of_ne {m : Nat} (hm : 0 < m) {a b : Nat} (ha : a < m) (hb : b < m)
    (h : a ≠ b) : (a : ZMod m) ≠ (b : ZMod m) :=
  fun hc => h (natCast_zmod_inj hm ha hb hc)

theorem cast_slope {m : Nat} (hm : 2 ≤ m) {x1 y1 x2 y2 : Nat}
    (hx1 : x1 < m) (hy1 : y1 < m) (hx2 : x2 < m) :
    ((ffDiv m (ffSub m y2 y1) (ffSub m x2 x1) : Nat) : ZMod m)
      = ((y2 : ZMod m) - (y1 : ZMod m)) *
          (((x2 : ZMod m) - (x1 : ZMod m)) ^ (m - 2)) := by
  have hm0 : 0 < m := by omega
  rw [cast_ffDiv hm _ (ffSub_lt hm0 x2 x1), cast_ffSub (le_add_self_of_lt hx1),
    cast_ffSub (le_add_self_of_lt hy1)]

theorem slope_swap {m : Nat} [Fact m.Prime] {x1 y1 x2 y2 : Nat}
    (hx1 : x1 < m) (hy1 : y1 < m) (hx2 : x2 < m) (hy2 : y2 < m) (hne : x1 ≠ x2) :
    ffDiv m (ffSub m y2 y1) (ffSub m x2 x1) = ffDiv m (ffSub m y1 y2) (ffSub m x1 x2) := by
  have hp : m.Prime := Fact.out
  have hm2 : 2 ≤ m := hp.two_le
  have hm0 : 0 < m := by omega
  have hv : ((x2 : ZMod m) - (x1 : ZMod m)) ≠ 0 :=
    sub_ne_zero.mpr (cast_ne_of_ne hm0 hx2 hx1 (Ne.symm hne))
  have hv' : ((x1 : ZMod m) - (x2 : ZMod m)) ≠ 0 :=
    sub_ne_zero.mpr (cast_ne_of_ne hm0 hx1 hx2 hne)
  apply natCast_zmod_inj hm0 (ffDiv_lt hm0 _ _) (ffDiv_lt hm0 _ _)
  rw [cast_slope hm2 hx1 hy1 hx2, cast_slope hm2 hx2 hy2 hx1,
    pow_sub_two_inv hv, pow_sub_two_inv hv']
  rw [show ((x1 : ZMod m) - (x2 : ZMod m)) = -((x2 : ZMod m) - (x1 : ZMod m)) by ring,
    inv_neg]
  ring

theorem cast_X {m : Nat} (hm0 : 0 < m) (s : Nat) {x1 x2 : Nat}
    (hx1 : x1 < m) (hx2 : x2 < m) :
    ((ffSub m (ffSub m (ffMul m s s) x1) x2 : Nat) : ZMod m)
      = (s : ZMod m) * (s : ZMod m) - (x1 : ZMod m) - (x2 : ZMod m) := by
  rw [cast_ffSub (le_add_self_of_lt hx2), cast_ffSub (le_add_self_of_lt hx1), cast_ffMul]

theorem cast_Y {m : Nat} (hm0 : 0 < m) (s : Nat) {x1 x2 y1 : Nat}
    (hx1 : x1 < m) (hx2 : x2 < m) (hy1 : y1 < m) :
    ((ffSub m (ffMul m s (ffSub m x1 (ffSub m (ffSub m (ffMul m s s) x1) x2))) y1 : Nat) :
        ZMod m)
      = (s : ZMod m) *
          ((x1 : ZMod m) - ((s : ZMod m) * (s : ZMod m) - (x1 : ZMod m) - (x2 : ZMod m)))
        - (y1 : ZMod m) := by
  rw [cast_ffSub (le_add_self_of_lt hy1), cast_ffMul,
    cast_ffSub (le_add_self_of_lt (ffSub_lt hm0 _ _)), cast_X hm0 s hx1 hx2]

theorem addPoint_swap {m : Nat} [Fact m.Prime] {x1 y1 x2 y2 : Nat}
    (hx1 : x1 < m) (hy1 : y1 < m) (hx2 : x2 < m) (hy2 : y2 < m) (hne : x1 ≠ x2) :
    ffSub m (ffSub m (ffMul m (ffDiv m (ffSub m y2 y1) (ffSub m x2 x1))
        (ffDiv m (ffSub m y2 y1) (ffSub m x2 x1))) x1) x2
      = ffSub m (ffSub m (ffMul m (ffDiv m (ffSub m y1 y2) (ffSub m x1 x2))
        (ffDiv m (ffSub m y1 y2) (ffSub m x1 x2))) x2) x1
    ∧ ffSub m (ffMul m (ffDiv m (ffSub m y2 y1) (ffSub m x2 x1))
        (ffSub m x1 (ffSub m (ffSub m (ffMul m (ffDiv m (ffSub m y2 y1) (ffSub m x2 x1))
          (ffDiv m (ffSub m y2 y1) (ffSub m x2 x1))) x1) x2))) y1
      = ffSub m (ffMul m (ffDiv m (ffSub m y1 y2) (ffSub m x1 x2))
        (ffSub m x2 (ffSub m (ffSub m (ffMul m (ffDiv m (ffSub m y1 y2) (ffSub m x1 x2))
          (ffDiv m (ffSub m y1 y2) (ffSub m x1 x2))) x2) x1))) y2 := by
  have hp : m.Prime := Fact.out
  have hm2 : 2 ≤ m := hp.two_le
  have hm0 : 0 < m := by omega
  rw [← slope_swap hx1 hy1 hx2 hy2 hne]
  set s := ffDiv m (ffSub m y2 y1) (ffSub m x2 x1) with hs
  have hv : ((x2 : ZMod m) - (x1 : ZMod m)) ≠ 0 :=
    sub_ne_zero.mpr (cast_ne_of_ne hm0 hx2 hx1 (Ne.symm hne))
  have hcs : ((s : Nat) : ZMod m)
      = ((y2 : ZMod m) - (y1 : ZMod m)) * (((x2 : ZMod m) - (x1 : ZMod m)) ^ (m - 2)) := by
    rw [hs]
    exact cast_slope hm2 hx1 hy1 hx2
  have hkey : ((s : Nat) : ZMod m) * ((x2 : ZMod m) - (x1 : ZMod m))
      = (y2 : ZMod m) - (y1 : ZMod m) := by
    rw [hcs, pow_sub_two_inv hv, mul_assoc, inv_mul_cancel₀ hv, mul_one]
  constructor
  · apply natCast_zmod_inj hm0 (ffSub_lt hm0 _ _) (ffSub_lt hm0 _ _)
    rw [cast_X hm0 s hx1 hx2, cast_X hm0 s hx2 hx1]
    ring
  · apply natCast_zmod_inj hm0 (ffSub_lt hm0 _ _) (ffSub_lt hm0 _ _)
    rw [cast_Y hm0 s hx1 hx2 hy1, cast_Y hm0 s hx2 hx1 hy2]
    linear_combination (-1 : ZMod m) * hkey

/-- C1 (amended): over a prime-modulus finite field, the ec_generic.rs point
addition is commutative for all same-curve points whose affine coordinates
are reduced residues; `P + Q = Q + P` including the `Infinity` and `Invalid`
variants. -/
theorem ecAdd_comm (m : Nat) (hm : m.Prime) (P Q : ECPoint)
    (hc : P.curve = Q.curve) (hP : coordsLt m P) (hQ : coordsLt m Q) :
    ecAdd m P Q = ecAdd m Q P := by
  haveI : Fact m.Prime := ⟨hm⟩
  obtain ⟨cP, p⟩ := P
  obtain ⟨cQ, q⟩ := Q
  replace hc : cP = cQ := hc
  subst hc
  unfold ecAdd
  rw [if_pos rfl, if_pos rfl]
  cases p with
  | Invalid => cases q <;> simp [ecAddBody]
  | Infinity => cases q <;> simp [ecAddBody]
  | Point x1 y1 =>
    cases q with
    | Invalid => simp [ecAddBody]
    | Infinity => simp [ecAddBody]
    | Point x2 y2 =>
      replace hP : x1 < m ∧ y1 < m := hP
      replace hQ : x2 < m ∧ y2 < m := hQ
      by_cases hx : x1 = x2
      · by_cases hy : y1 = y2
        · subst hx; subst hy; rfl
        · have h1 : x1 = x2 ∧ y1 ≠ y2 := ⟨hx, hy⟩
          have h1' : x2 = x1 ∧ y2 ≠ y1 := ⟨hx.symm, Ne.symm hy⟩
          simp only [ecAddBody]
          rw [if_pos h1, if_pos h1']
      · obtain ⟨hX, hY⟩ := addPoint_swap hP.1 hP.2 hQ.1 hQ.2 hx
        simp only [ecAddBody, hx, Ne.symm hx, false_and, if_false]
        rw [hY, hX]

/-- C1 (counterexample): in the fixed-width ec.rs variant the truncating
`i32` slope division breaks commutativity.  `(-1, 1)` and `(2, 5)` are both
valid points of `y^2 = x^3 + 5x + 7` over the integers, yet
`(-1,1) + (2,5) = (0,-2)` while `(2,5) + (-1,1) = (0,-3)`. -/
theorem epAdd_not_comm :
    epContains 5 7 (-1) 1 = true ∧ epContains 5 7 2 5 = true
    ∧ epAdd 5 7 (some (-1, 1)) (some (2, 5)) = some (0, -2)
    ∧ epAdd 5 7 (some (2, 5)) (some (-1, 1)) = some (0, -3)
    ∧ epAdd 5 7 (some (-1, 1)) (some (2, 5)) ≠ epAdd 5 7 (some (2, 5)) (some (-1, 1)) := by
  decide

/-- C1 (witness): on `y^2 = x^3 + 7` over the field mod 223,
`(192,105) + (17,56)` and `(17,56) + (192,105)` agree, and both equal
`(170, 142)`. -/
theorem ecAdd_comm_witness :
    ecAdd 223 ⟨⟨0, 7⟩, PointType.Point 192 105⟩ ⟨⟨0, 7⟩, PointType.Point 17 56⟩
      = ecAdd 223 ⟨⟨0, 7⟩, PointType.Point 17 56⟩ ⟨⟨0, 7⟩, PointType.Point 192 105⟩
    ∧ ecAdd 223 ⟨⟨0, 7⟩, PointType.Point 192 105⟩ ⟨⟨0, 7⟩, PointType.Point 17 56⟩
      = some ⟨⟨0, 7⟩, PointType.Point 170 142⟩ :=
  ⟨ecAdd_comm 223 (by norm_num) _ _ rfl (by exact ⟨by decide, by decide⟩)
    (by exact ⟨by decide, by decide⟩), by decide⟩

/-- C2: for a prime modulus `m`, a nonzero residue `b` and any residue `a`,
division computes `a * b^(m-2) mod m`, the Fermat exponentiation
`b.exp(m-2)` is a multiplicative inverse of `b`, and `(a / b) * b = a`. -/
theorem ffDiv_fermat (m a b : Nat) (hm : m.Prime) (hb0 : b ≠ 0) (hb : b < m)
    (ha : a < m) :
    ffDiv m a b = a * b ^ (m - 2) % m
    ∧ ffMul m (ffExp m b (m - 2)) b = 1
    ∧ ffMul m (ffDiv m a b) b = a := by
  haveI : Fact m.Prime := ⟨hm⟩
  have hm2 : 2 ≤ m := hm.two_le
  have hm0 : 0 < m := by omega
  have hbz : (b : ZMod m) ≠ 0 := by
    intro h
    exact hb0 (natCast_zmod_inj hm0 hb hm0 (by rwa [Nat.cast_zero]))
  refine ⟨?_, ?_, ?_⟩
  · show ffMul m a (ffExp m b (m - 2)) = a * b ^ (m - 2) % m
    rw [ffExp_correct hm2 hb]
    exact Nat.ModEq.mul_left a (Nat.mod_modEq _ _)
  · apply natCast_zmod_inj hm0 (ffMul_lt hm0 _ _) (by omega : 1 < m)
    rw [cast_ffMul, cast_ffExp hm2 hb, Nat.cast_one, pow_sub_two_inv hbz]
    exact inv_mul_cancel₀ hbz
  · apply natCast_zmod_inj hm0 (ffMul_lt hm0 _ _) ha
    rw [cast_ffMul, cast_ffDiv hm2 a hb, pow_sub_two_inv hbz, mul_assoc,
      inv_mul_cancel₀ hbz, mul_one]

/-- C2 (witness): in the field mod 19, `2 / 7 = 3` and `7.exp(17) * 7 = 1`. -/
theorem ffDiv_fermat_witness :
    ffDiv 19 2 7 = 2 * 7 ^ 17 % 19 ∧ ffMul 19 (ffExp 19 7 17) 7 = 1
    ∧ ffMul 19 (ffDiv 19 2 7) 7 = 2 ∧ ffDiv 19 2 7 = 3 := by
  have h := ffDiv_fermat 19 2 7 (by norm_num) (by decide) (by decide) (by decide)
  exact ⟨h.1, h.2.1, h.2.2, by decide⟩

/-- C3 (counterexample): with modulus 1 the zero element is a legal residue,
and `0.exp(0)` returns the raw value `1`, which is not `0^0` reduced mod 1
(that is `0`). -/
theorem ffExp_mod_one_counterexample :
    ffExp 1 0 0 = 1 ∧ 0 ^ 0 % 1 = 0 ∧ ffExp 1 0 0 ≠ 0 ^ 0 % 1 := by
  decide

/-- C3 (amended): for every modulus `m ≥ 2`, every residue `x < m` and every
exponent `e`, `x.exp(e)` equals `x^e` reduced mod `m`; in particular it is
`1` whenever `e = 0` and `0` whenever `x = 0` and `e > 0`. -/
theorem ffExp_spec (m x e : Nat) (hm : 2 ≤ m) (hx : x < m) :
    ffExp m x e = x ^ e % m
    ∧ (e = 0 → ffExp m x e = 1)
    ∧ (x = 0 → 0 < e → ffExp m x e = 0) := by
  refine ⟨ffExp_correct hm hx e, ?_, ?_⟩
  · intro he
    subst he
    simp [ffExp]
  · intro hx0 he
    subst hx0
    have : e ≠ 0 := by omega
    simp [ffExp, this]

/-- C3 (witness): in the field mod 13, `3.exp(3) = 1`, `3.exp(0) = 1`,
`0.exp(0) = 1` and `0.exp(3) = 0`. -/
theorem ffExp_spec_witness :
    ffExp 13 3 3 = 1 ∧ ffExp 13 3 0 = 1 ∧ ffExp 13 0 0 = 1 ∧ ffExp 13 0 3 = 0 := by
  refine ⟨?_, ?_, ?_, ?_⟩
  · exact ((ffExp_spec 13 3 3 (by decide) (by decide)).1).trans (by decide)
  · exact (ffExp_spec 13 3 0 (by decide) (by decide)).2.1 rfl
  · exact (ffExp_spec 13 0 0 (by decide) (by decide)).2.1 rfl
  · exact (ffExp_spec 13 0 3 (by decide) (by decide)).2.2 rfl (by decide)

/-- C4: for two affine operands the ec_generic.rs addition returns
`Infinity` exactly in the two vertical-line cases: same x with different y
(additive inverses), or doubling a point whose y-coordinate is the zero
element. -/
theorem ecAdd_eq_infinity_iff (m : Nat) (c : ECurve) (x1 y1 x2 y2 : Nat) :
    ecAdd m ⟨c, PointType.Point x1 y1⟩ ⟨c, PointType.Point x2 y2⟩
        = some ⟨c, PointType.Infinity⟩
      ↔ (x1 = x2 ∧ y1 ≠ y2) ∨ (x1 = x2 ∧ y1 = y2 ∧ y1 = 0 % m) := by
  unfold ecAdd
  rw [if_pos rfl]
  simp only [ecAddBody]
  by_cases h1 : x1 = x2 ∧ y1 ≠ y2
  · simp [h1]
  · rw [if_neg h1]
    by_cases h2 : x1 = x2 ∧ y1 = y2
    · rw [if_pos h2]
      by_cases h3 : y1 = 0 % m
      · simp [h1, h2, h3]
      · simp only [if_neg h3]
        simp only [Option.some.injEq]
        constructor
        · intro h
          exact absurd (congrArg ECPoint.p h) (by simp)
        · rintro (h | h)
          · exact absurd h h1
          · exact absurd h.2.2 h3
    · rw [if_neg h2]
      simp only [Option.some.injEq]
      constructor
      · intro h
        exact absurd (congrArg ECPoint.p h) (by simp)
      · rintro (h | h)
        · exact absurd h h1
        · exact absurd ⟨h.1, h.2.1⟩ h2

/-- C5: the point at infinity is the additive identity of the ec_generic.rs
addition: `P + Infinity = P` and `Infinity + P = P` for every point `P`,
including `Infinity` and `Invalid` themselves. -/
theorem ecAdd_identity (m : Nat) (P : ECPoint) :
    ecAdd m P ⟨P.curve, PointType.Infinity⟩ = some P
    ∧ ecAdd m ⟨P.curve, PointType.Infinity⟩ P = some P := by
  obtain ⟨c, p⟩ := P
  cases p <;> simp [ecAdd, ecAddBody]

/-- C6: for field elements `a, b < m`, the results of `+`, `-` and `*` are
renormalized into the canonical range `[0, m)`. -/
theorem ff_ops_in_range (m a b : Nat) (ha : a < m) (hb : b < m) :
    ffAdd m a b < m ∧ ffSub m a b < m ∧ ffMul m a b < m := by
  have hm : 0 < m := lt_of_le_of_lt (Nat.zero_le a) ha
  exact ⟨Nat.mod_lt _ hm, Nat.mod_lt _ hm, Nat.mod_lt _ hm⟩

/-- C6 (witness): in the field mod 7 at `a = 4`, `b = 6` the results of
all three operations are below the modulus. -/
theorem ff_ops_in_range_witness :
    ffAdd 7 4 6 < 7 ∧ ffSub 7 4 6 < 7 ∧ ffMul 7 4 6 < 7 :=
  ff_ops_in_range 7 4 6 (by decide) (by decide)

/-- C7: `point_at` returns the affine point exactly when
`y^2 = x^3 + a*x + b` holds in the field and the `Invalid` sentinel exactly
otherwise (no abort: it is total), and any addition with an `Invalid`
operand yields `Invalid`. -/
theorem point_at_invalid_spec (m : Nat) (c : ECurve) (x y : Nat) :
    (point_at m c x y = ⟨c, PointType.Point x y⟩
      ↔ ffMul m y y = ffAdd m (ffAdd m (ffMul m (ffMul m x x) x) (ffMul m c.a x)) c.b)
    ∧ (point_at m c x y = ⟨c, PointType.Invalid⟩
      ↔ ¬ ffMul m y y = ffAdd m (ffAdd m (ffMul m (ffMul m x x) x) (ffMul m c.a x)) c.b)
    ∧ (∀ P Q : ECPoint, P.curve = Q.curve →
        P.p = PointType.Invalid ∨ Q.p = PointType.Invalid →
        ecAdd m P Q = some ⟨P.curve, PointType.Invalid⟩) := by
  refine ⟨?_, ?_, ?_⟩
  · by_cases h : contains m c x y
    · simp only [point_at, if_pos h, true_iff]
      simpa [contains] using h
    · simp only [point_at, if_neg h]
      constructor
      · intro hEq
        exact absurd (congrArg ECPoint.p hEq) (by simp)
      · intro hEq
        exact absurd (by simpa [contains] using hEq) h
  · by_cases h : contains m c x y
    · simp only [point_at, if_pos h]
      constructor
      · intro hEq
        exact absurd (congrArg ECPoint.p hEq) (by simp)
      · intro hEq
        exact absurd (by simpa [contains] using h) hEq
    · simp only [point_at, if_neg h, true_iff]
      simpa [contains] using h
  · intro P Q hcurve hinv
    obtain ⟨cP, p⟩ := P
    obtain ⟨cQ, q⟩ := Q
    replace hcurve : cP = cQ := hcurve
    subst hcurve
    rcases hinv with h | h
    · replace h : p = PointType.Invalid := h
      subst h
      cases q <;> simp [ecAdd, ecAddBody]
    · replace h : q = PointType.Invalid := h
      subst h
      cases p <;> simp [ecAdd, ecAddBody]

/-- C7 (witness): on `y^2 = x^3 + 7` over the field mod 223, `(192, 105)`
validates to an affine point, `(0, 1)` validates to `Invalid`, and adding
an `Invalid` point to an affine point yields `Invalid`. -/
theorem point_at_invalid_spec_witness :
    point_at 223 ⟨0, 7⟩ 192 105 = ⟨⟨0, 7⟩, PointType.Point 192 105⟩
    ∧ point_at 223 ⟨0, 7⟩ 0 1 = ⟨⟨0, 7⟩, PointType.Invalid⟩
    ∧ ecAdd 223 ⟨⟨0, 7⟩, PointType.Invalid⟩ ⟨⟨0, 7⟩, PointType.Point 192 105⟩
      = some ⟨⟨0, 7⟩, PointType.Invalid⟩ :=
  ⟨(point_at_invalid_spec 223 ⟨0, 7⟩ 192 105).1.mpr (by decide),
    (point_at_invalid_spec 223 ⟨0, 7⟩ 0 1).2.1.mpr (by decide),
    (point_at_invalid_spec 223 ⟨0, 7⟩ 0 1).2.2 _ _ rfl (Or.inl rfl)⟩

/-- C8: the spec-modelled `FieldElement::new(value, modulus)` fails with the
recoverable `InvalidResidue` error exactly when `value ≥ modulus` and
returns the normalized element holding the value otherwise. -/
theorem fieldElement_new_spec (v m : Nat) :
    (m ≤ v → FieldElement.new v m = Except.error FieldError.InvalidResidue)
    ∧ (v < m → FieldElement.new v m = Except.ok ⟨v, m⟩) := by
  constructor
  · intro h
    rw [FieldElement.new, if_neg (by omega)]
  · intro h
    rw [FieldElement.new, if_pos h]

/-- C8 (witness): `new(10, 7)` fails with `InvalidResidue`, `new(5, 7)`
returns the element `5` of the field mod 7. -/
theorem fieldElement_new_spec_witness :
    FieldElement.new 10 7 = Except.error FieldError.InvalidResidue
    ∧ FieldElement.new 5 7 = Except.ok ⟨5, 7⟩ :=
  ⟨(fieldElement_new_spec 10 7).1 (by decide), (fieldElement_new_spec 5 7).2 (by decide)⟩

/-- C9: adding points that reference different curve parameters is the fatal
`assert!` in ec_generic.rs: the operation aborts (modelled by `none`) and
returns no point. -/
theorem ecAdd_curve_mismatch (m : Nat) (P Q : ECPoint) (h : P.curve ≠ Q.curve) :
    ecAdd m P Q = none := by
  simp [ecAdd, h]

/-- C9 (witness): adding a point of `y^2 = x^3 + 7` to a point of
`y^2 = x^3 + x + 7` aborts. -/
theorem ecAdd_curve_mismatch_witness :
    ecAdd 223 ⟨⟨0, 7⟩, PointType.Infinity⟩ ⟨⟨1, 7⟩, PointType.Infinity⟩ = none :=
  ecAdd_curve_mismatch 223 _ _ (by decide)

/-- C10: for any modulus `m > 2`, dividing any residue by the zero element
returns the zero element without any error: `exp(0, m-2)` takes the
zero-base special case and `a * 0 = 0`. -/
theorem ffDiv_zero_divisor (m a : Nat) (hm : 2 < m) : ffDiv m a 0 = 0 := by
  have h2 : m - 2 ≠ 0 := by omega
  simp [ffDiv, ffExp, ffMul, h2]

/-- C10 (witness): in the field mod 13, `5 / 0 = 0`. -/
theorem ffDiv_zero_divisor_witness : ffDiv 13 5 0 = 0 :=
  ffDiv_zero_divisor 13 5 (by decide)
